import Mathlib

/-!
Verification of `scipro.field.Field` (src/scipro/field.py), a sampled
complex-valued signal with a domain tag, against its specification.

The embedding is shallow: numpy arrays of length `N = n + 1` become
functions `Fin (n + 1) → ℝ/ℂ`, floating-point arithmetic becomes exact
real/complex arithmetic, and the two fallible operations (`fft`, `ifft`,
which raise on a domain mismatch) return `Option`.  The external FFT
primitive (`scipy.fftpack.fft/ifft`) is embedded as the exact discrete
Fourier transform it computes; the external least-squares solver is an
oracle argument of `Field.chirp`.
-/

open Complex ComplexConjugate Finset

namespace Scipro

noncomputable section

/-- Domain tag of a `Field`: the source stores `d = 'time'` or `d = 'freq'`. -/
inductive Domain : Type
  | time : Domain
  | freq : Domain
deriving DecidableEq, Repr

/-- A `Field` with `n + 1` samples: coordinate axis `x`, complex samples `y`,
domain tag and reference carrier frequency (`Field.__init__`, field.py:19-39,
after normalising the three input forms to one complex sequence). -/
@[ext]
structure Field (n : ℕ) : Type where
  x : Fin (n + 1) → ℝ
  y : Fin (n + 1) → ℂ
  domain : Domain
  central_freq : ℝ

/-- Sample construction of `Field.__init__` (field.py:29-39) for the case
where `yr` (and `yi`) are passed explicitly: a missing `yform` defaults to
`'complex'`; the `'complex'` form stores `yr` cast to complex (ignoring
`yi`), `'alg'` stores `yr + i*yi`, `'exp'` stores `yr*exp(i*yi)`, and an
unrecognised form only prints a warning, so no sample sequence is assigned
at all (`none`). -/
def fieldInitY {n : ℕ} (yform : Option String) (yr yi : Fin (n + 1) → ℝ) :
    Option (Fin (n + 1) → ℂ) :=
  let yf := yform.getD ("complex")
  if yf = "complex" then some fun i => (yr i : ℂ)
  else if yf = "alg" then some fun i => (yr i : ℂ) + (yi i : ℂ) * Complex.I
  else if yf = "exp" then some fun i => (yr i : ℂ) * Complex.exp (Complex.I * (yi i : ℂ))
  else none

/-- The object state `Field.__init__` leaves behind: `domain` and
`central_freq` are always assigned (field.py:20-21), while the sample
sequence is only assigned when the form is recognised. -/
structure RawField (n : ℕ) : Type where
  samples : Option (Fin (n + 1) → ℂ)
  domain : Domain
  central_freq : ℝ

/-- `Field.__init__(x, yr, yi, yform, d, cf)` with `yr`/`yi` passed
explicitly (field.py:19-39).  It always produces an instance — the
unknown-form branch merely prints — so the result is a `RawField`, possibly
with no samples. -/
def fieldInit {n : ℕ} (_x : Fin (n + 1) → ℝ) (yr yi : Fin (n + 1) → ℝ)
    (yform : Option String) (d : Domain) (cf : ℝ) : RawField n :=
  { samples := fieldInitY yform yr yi, domain := d, central_freq := cf }

/-- `scipy.integrate.trapz(v, x)`: the trapezoidal rule
`Σ_i (x_{i+1} - x_i) * (v_i + v_{i+1}) / 2`. -/
def trapz {n : ℕ} (x v : Fin (n + 1) → ℝ) : ℝ :=
  ∑ i : Fin n, (x i.succ - x i.castSucc) * (v i.castSucc + v i.succ) / 2

/-- `Field.power` (field.py:102-104): trapezoidal integral of
`real(y * conj(y))` over `x`. -/
def Field.power {n : ℕ} (f : Field n) : ℝ :=
  trapz f.x fun i => (f.y i * conj (f.y i)).re

/-- `Field.normpower` (field.py:106-111): `k = pwr / self.power()`, then a
copy of the field with `y` multiplied by `sqrt(k)`.  The division is
embedded as Lean's total real division, under which `k = 0` when the power
is zero; in the program that degenerate division instead yields a
non-finite `inf`/`nan` scale (numpy emits only a warning).  That degenerate
path is modelled faithfully by `fdiv`/`Field.normpowerF` below, and the
missing zero-power guard itself is reported under the degenerate-power
error claim. -/
def Field.normpower {n : ℕ} (f : Field n) (pwr : ℝ) : Field n :=
  { f with y := fun i => f.y i * (Real.sqrt (pwr / f.power) : ℂ) }

/-- Floating-point division as numpy evaluates `pwr / self.power()`
(field.py:108): when the divisor is zero the quotient is non-finite (`inf`,
or `nan` for `0.0/0.0`), so no real number represents it — modelled as
`none`. -/
def fdiv (a b : ℝ) : Option ℝ :=
  if b = 0 then none else some (a / b)

/-- `Field.normpower` with the degenerate division tracked: the scale
`k = pwr / power` exists as a real number only when the receiver's power is
nonzero; otherwise the program returns a Field of non-finite samples, which
no Field of real-valued data represents (`none`).  (Only the division's
non-finiteness is modelled; `sqrt` of a negative scale cannot arise on
spec-valid Fields, whose power is nonnegative.)  On the nonzero-power path
this agrees with `Field.normpower`. -/
def Field.normpowerF {n : ℕ} (f : Field n) (pwr : ℝ) : Option (Field n) :=
  (fdiv pwr f.power).map fun k => { f with y := fun i => f.y i * (Real.sqrt k : ℂ) }

/-- `scipy.fftpack.fftfreq(N, d)`: index `k` maps to `k/(N*d)` for
`k < ⌈N/2⌉` and to `(k-N)/(N*d)` otherwise. -/
def fftfreq (N : ℕ) (d : ℝ) : Fin N → ℝ :=
  fun k => (if (k : ℕ) < (N + 1) / 2 then ((k : ℕ) : ℝ) else ((k : ℕ) : ℝ) - N) / (N * d)

/-- `scipy.fftpack.fftshift` on an `N = n+1` vector: roll by `⌊N/2⌋`,
so entry `i` reads entry `(i + N - ⌊N/2⌋) mod N`. -/
def fftshiftF {n : ℕ} {α : Type} (v : Fin (n + 1) → α) : Fin (n + 1) → α :=
  fun i => v ⟨(i.val + (n + 1 - (n + 1) / 2)) % (n + 1), Nat.mod_lt _ n.succ_pos⟩

/-- `scipy.fftpack.ifftshift`: roll by `-⌊N/2⌋`, so entry `i` reads entry
`(i + ⌊N/2⌋) mod N`. -/
def ifftshiftF {n : ℕ} {α : Type} (v : Fin (n + 1) → α) : Fin (n + 1) → α :=
  fun i => v ⟨(i.val + (n + 1) / 2) % (n + 1), Nat.mod_lt _ n.succ_pos⟩

/-- The exact discrete Fourier transform computed by `scipy.fftpack.fft`:
`X_k = Σ_j x_j * exp(-2πi*k*j/N)`. -/
def dft (N : ℕ) (y : Fin N → ℂ) : Fin N → ℂ :=
  fun k => ∑ j, y j * Complex.exp (-(2 * (Real.pi : ℂ) * Complex.I) * ((k : ℕ) * (j : ℕ) : ℕ) / N)

/-- The exact inverse transform computed by `scipy.fftpack.ifft`:
`x_j = (1/N) * Σ_k X_k * exp(2πi*k*j/N)`. -/
def idft (N : ℕ) (y : Fin N → ℂ) : Fin N → ℂ :=
  fun k => (∑ j, y j * Complex.exp (2 * (Real.pi : ℂ) * Complex.I * ((k : ℕ) * (j : ℕ) : ℕ) / N)) / N

/-- The sample spacing `abs(x[-1] - x[0]) / (len(x) - 1)` computed by both
`Field.fft` (as `dt`, field.py:127) and `Field.ifft` (as `fmin`,
field.py:147). -/
def Field.spacing {n : ℕ} (f : Field n) : ℝ :=
  |f.x (Fin.last n) - f.x 0| / n

/-- The `retval` of `Field.fft` before the optional normalisation
(field.py:125-129): the new axis is `fftshift(fftfreq(N, dt) + central_freq)`
with `dt` the sample spacing, the new samples are
`fftshift(fft(ifftshift(y)))`, the domain becomes `'freq'`. -/
def Field.fftRaw {n : ℕ} (f : Field n) : Field n :=
  { x := fftshiftF fun k => fftfreq (n + 1) f.spacing k + f.central_freq
    y := fftshiftF (dft (n + 1) (ifftshiftF f.y))
    domain := Domain.freq
    central_freq := f.central_freq }

/-- `Field.fft` (field.py:113-135).  Precondition `domain == 'time'`, else an
exception is raised (`none`); unless `asis` the result is rescaled to the
input's pre-transform total power. -/
def Field.fft {n : ℕ} (f : Field n) (asis : Bool) : Option (Field n) :=
  if f.domain = Domain.time then
    if asis then some f.fftRaw else some (f.fftRaw.normpower f.power)
  else
    none

/-- The `retval` of `Field.ifft` before the optional normalisation
(field.py:145-149): the new axis is
`linspace(-0.5/fmin, 0.5/fmin, N, endpoint=False)` with `fmin` the spacing
of the frequency axis, the new samples are `fftshift(ifft(ifftshift(y)))`,
the domain becomes `'time'`. -/
def Field.ifftRaw {n : ℕ} (f : Field n) : Field n :=
  { x := fun k =>
      -(0.5 / f.spacing) + ((k : ℕ) : ℝ) * ((0.5 / f.spacing - -(0.5 / f.spacing)) / (n + 1))
    y := fftshiftF (idft (n + 1) (ifftshiftF f.y))
    domain := Domain.time
    central_freq := f.central_freq }

/-- `Field.ifft` (field.py:137-155).  Precondition `domain == 'freq'`, else an
exception is raised (`none`); unless `asis` the result is rescaled to the
input's pre-transform total power. -/
def Field.ifft {n : ℕ} (f : Field n) (asis : Bool) : Option (Field n) :=
  if f.domain = Domain.freq then
    if asis then some f.ifftRaw else some (f.ifftRaw.normpower f.power)
  else
    none

/-- `Field.fft(asis=False)` with the degenerate normalisation division
tracked (field.py:130-132): compute the raw transform, then rescale it to
the input's pre-transform power through the possibly non-finite scale
(`Field.normpowerF`). -/
def Field.fftNormed {n : ℕ} (f : Field n) : Option (Field n) :=
  if f.domain = Domain.time then f.fftRaw.normpowerF f.power else none

/-- The composition of the round-trip claim:
`f.fft(asis=True)` followed by `.ifft(asis=True)`. -/
def Field.roundtrip {n : ℕ} (f : Field n) : Option (Field n) :=
  (f.fft true).bind fun g => g.ifft true

/-- `numpy.arctan2 b a`: the argument of the complex number `a + b*i`,
in `(-π, π]`. -/
def arctan2 (b a : ℝ) : ℝ :=
  Complex.arg ⟨a, b⟩

/-- The raw wrapped phase `arctan2(imag(y), real(y))` used by `Field.phase`
and `Field.phasemerged` (field.py:46, 58). -/
def Field.phaseY {n : ℕ} (f : Field n) : Fin (n + 1) → ℝ :=
  fun i => arctan2 (f.y i).im (f.y i).re

/-- `Field.phaseY` read at a natural index (out-of-range reads give `0`;
the loop in the source only reads indices `0..n`). -/
def Field.phiNat {n : ℕ} (f : Field n) : ℕ → ℝ :=
  fun i => if h : i < n + 1 then f.phaseY ⟨i, h⟩ else 0

/-- The running `shift` of `Field.phasemerged` (field.py:48-52) after the
pair `(i-1, i)` has been processed: starting from the argument `shift`, a
backward raw-phase step greater than `gap*π` adds `2π`, one below `-gap*π`
subtracts `2π`. -/
def mergeShift (phi : ℕ → ℝ) (gap s0 : ℝ) : ℕ → ℝ
  | 0 => s0
  | i + 1 =>
    let s := mergeShift phi gap s0 i
    if phi i - phi (i + 1) > gap * Real.pi then s + 2 * Real.pi
    else if phi i - phi (i + 1) < -(gap * Real.pi) then s - 2 * Real.pi
    else s

/-- The y-values of `Field.phasemerged(gap, shift)` (field.py:44-54): sample
`0` keeps its raw phase (the loop starts at `i = 1`), sample `i ≥ 1` gets
the running shift after pair `(i-1, i)` added to its raw phase. -/
def Field.phasemergedY {n : ℕ} (f : Field n) (gap s0 : ℝ) : Fin (n + 1) → ℝ :=
  fun i => if i.val = 0 then f.phaseY i else f.phaseY i + mergeShift f.phiNat gap s0 i.val

/-- The return pair of `scipy.optimize.leastsq`: the solution vector and the
integer status flag `ier`. -/
structure LeastsqResult : Type where
  sol : Fin 3 → ℝ
  ier : ℤ

/-- scipy's contract: a solution was found iff `ier ∈ {1, 2, 3, 4}`; any
other flag reports a failure (non-convergence among them). -/
def LeastsqResult.converged (r : LeastsqResult) : Prop :=
  r.ier = 1 ∨ r.ier = 2 ∨ r.ier = 3 ∨ r.ier = 4

instance : DecidablePred LeastsqResult.converged := fun r => by
  unfold LeastsqResult.converged
  infer_instance

/-- The initial guess `p0` of `Field.chirp` (field.py:97):
`[phase[0], (phase[-1]-phase[0])/(x[-1]-x[0]), 0]` over the unwrapped
phase. -/
def Field.chirpP0 {n : ℕ} (f : Field n) (pgap : ℝ) : Fin 3 → ℝ :=
  let ph := f.phasemergedY pgap 0
  ![ph 0, (ph (Fin.last n) - ph 0) / (f.x (Fin.last n) - f.x 0), 0]

/-- `Field.chirp` (field.py:90-100) with the external least-squares solver
as an oracle argument receiving exactly what the source passes it (the
initial guess and the `(x, y)` data of the unwrapped phase).  The source
returns `p[0][2]` — the third coefficient of whatever pair the solver hands
back — without inspecting the status flag. -/
def Field.chirp {n : ℕ} (f : Field n) (pgap : ℝ)
    (leastsq : (Fin 3 → ℝ) → (Fin (n + 1) → ℝ) → (Fin (n + 1) → ℝ) → LeastsqResult) : ℝ :=
  (leastsq (f.chirpP0 pgap) f.x (f.phasemergedY pgap 0)).sol 2

/-- Concrete two-sample time-domain field `x = [0, 1]`, `y = [1, 1]`,
used as input of several witnesses. -/
def fOneW : Field 1 :=
  { x := fun i => ((i : ℕ) : ℝ), y := fun _ => 1, domain := Domain.time, central_freq := 0 }

/-- Concrete two-sample frequency-domain field. -/
def fFreqW : Field 1 :=
  { x := fun i => ((i : ℕ) : ℝ), y := fun _ => 1, domain := Domain.freq, central_freq := 0 }

/-- Concrete two-sample time-domain field with all samples zero: its total
power is zero. -/
def fZeroW : Field 1 :=
  { x := fun i => ((i : ℕ) : ℝ), y := fun _ => 0, domain := Domain.time, central_freq := 0 }

/-- C4: invoking `fft` on a frequency-domain `Field` raises immediately, and
invoking `ifft` on a time-domain `Field` raises immediately; in both cases
no partial result is produced (`none`: the guard is the first statement of
either method). -/
theorem C4_domain_mismatch {n : ℕ} (f : Field n) (asis : Bool) :
    (f.domain = Domain.freq → f.fft asis = none) ∧
    (f.domain = Domain.time → f.ifft asis = none) := by
  constructor <;> intro h <;> simp [Field.fft, Field.ifft, h]

/-- Witness for C4 at concrete fields: `fft` on a frequency-domain field and
`ifft` on a time-domain field both return no result. -/
theorem C4_domain_mismatch_witness :
    fFreqW.fft true = none ∧ fOneW.ifft true = none :=
  ⟨(C4_domain_mismatch fFreqW true).1 rfl, (C4_domain_mismatch fOneW true).2 rfl⟩

/-- C6 (code_bug evaluation): constructing with the unrecognised form
`'quadratic'` does not fail — the source prints `'unknown yform'` and
returns an instance whose sample sequence was never assigned (`samples =
none`) while `domain`/`central_freq` are set: exactly the undefined state
the spec says must not be produced. -/
theorem C6_unknown_yform_eval :
    (fieldInit (n := 0) ![1] ![1] ![0] (some ("quadratic")) Domain.time 0).samples = none ∧
    (fieldInit (n := 0) ![1] ![1] ![0] (some ("quadratic")) Domain.time 0).domain =
      Domain.time := by
  constructor <;> rfl

/-- C10: with `yr` and `yi` both supplied and `yform` omitted, construction
behaves exactly as `yform = 'complex'`: the stored samples are `yr` cast to
complex and `yi` is ignored. -/
theorem C10_default_complex_ignores_yi {n : ℕ} (x yr yi : Fin (n + 1) → ℝ)
    (d : Domain) (cf : ℝ) :
    fieldInit x yr yi none d cf = fieldInit x yr yi (some ("complex")) d cf ∧
    (fieldInit x yr yi none d cf).samples = some fun i => (yr i : ℂ) := by
  constructor <;> rfl

/-- The integrand of `Field.power` is pointwise nonnegative. -/
theorem mul_conj_re_nonneg (z : ℂ) : 0 ≤ (z * conj z).re := by
  rw [Complex.mul_conj, Complex.ofReal_re]
  exact Complex.normSq_nonneg z

/-- The trapezoidal rule over an axis with nondecreasing steps and a
nonnegative integrand is nonnegative. -/
theorem trapz_nonneg {n : ℕ} {x v : Fin (n + 1) → ℝ}
    (hstep : ∀ i : Fin n, x i.castSucc ≤ x i.succ)
    (hv : ∀ i, 0 ≤ v i) : 0 ≤ trapz x v :=
  Finset.sum_nonneg fun i _ => by
    have h2 : 0 ≤ v i.castSucc + v i.succ := add_nonneg (hv _) (hv _)
    have h3 : 0 ≤ x i.succ - x i.castSucc := sub_nonneg.mpr (hstep i)
    exact div_nonneg (mul_nonneg h3 h2) (by norm_num)

/-- The trapezoidal rule is linear in the integrand: a constant factor pulls
out. -/
theorem trapz_smul {n : ℕ} (x v : Fin (n + 1) → ℝ) (c : ℝ) :
    trapz x (fun i => c * v i) = c * trapz x v := by
  unfold trapz
  rw [Finset.mul_sum]
  exact Finset.sum_congr rfl fun i _ => by ring

/-- Scaling every sample by the real factor `sqrt(pwr / power)` scales the
total power by that factor squared. -/
theorem power_normpower {n : ℕ} (f : Field n) (t : ℝ) :
    (f.normpower t).power = Real.sqrt (t / f.power) ^ 2 * f.power := by
  have key : ∀ z : ℂ,
      (z * (Real.sqrt (t / f.power) : ℂ) * conj (z * (Real.sqrt (t / f.power) : ℂ))).re =
        Real.sqrt (t / f.power) ^ 2 * (z * conj z).re := by
    intro z
    have hz : z * (Real.sqrt (t / f.power) : ℂ) * conj (z * (Real.sqrt (t / f.power) : ℂ)) =
        ((Real.sqrt (t / f.power) ^ 2 : ℝ) : ℂ) * (z * conj z) := by
      rw [map_mul, Complex.conj_ofReal]
      push_cast
      ring
    rw [hz, Complex.re_ofReal_mul]
  have h1 : (f.normpower t).power =
      trapz f.x fun i => Real.sqrt (t / f.power) ^ 2 * (f.y i * conj (f.y i)).re := by
    show trapz f.x
        (fun i => (f.y i * (Real.sqrt (t / f.power) : ℂ) *
          conj (f.y i * (Real.sqrt (t / f.power) : ℂ))).re) = _
    exact congrArg (trapz f.x) (funext fun i => key (f.y i))
  rw [h1, trapz_smul]
  rfl

/-- C5: on a Field with (invariantly monotone axis and) nonzero total power
and a positive target, `normpower` scales the samples by
`sqrt(target / power)` and the result's total power is exactly the
target. -/
theorem C5_normpower_exact {n : ℕ} (f : Field n) (t : ℝ) (hx : Monotone f.x)
    (hp : f.power ≠ 0) (ht : 0 < t) :
    (f.normpower t).power = t ∧
      ∀ i, (f.normpower t).y i = f.y i * (Real.sqrt (t / f.power) : ℂ) := by
  have hp0 : 0 < f.power :=
    (trapz_nonneg (fun i => hx (Fin.castSucc_lt_succ i).le)
      fun i => mul_conj_re_nonneg _).lt_of_ne'  hp
  refine ⟨?_, fun i => rfl⟩
  rw [power_normpower, Real.sq_sqrt (by positivity), div_mul_cancel₀ _ hp]

/-- The concrete field `fOneW` has monotone axis. -/
theorem fOneW_mono : Monotone fOneW.x := fun a b h => by
  show ((a : ℕ) : ℝ) ≤ ((b : ℕ) : ℝ)
  exact_mod_cast Fin.le_def.mp h

/-- The concrete field `fOneW` has total power `1`. -/
theorem fOneW_power : fOneW.power = 1 := by
  show trapz _ _ = 1
  rw [trapz, Fin.sum_univ_one]
  norm_num [fOneW]

/-- Witness for C5: normalising `fOneW` (power `1`) to power `2` yields
power exactly `2`, each sample scaled by `sqrt(2 / power)`. -/
theorem C5_normpower_exact_witness :
    (fOneW.normpower 2).power = 2 ∧
      (fOneW.normpower 2).y 0 = fOneW.y 0 * (Real.sqrt (2 / fOneW.power) : ℂ) := by
  have h := C5_normpower_exact fOneW 2 fOneW_mono
    (by rw [fOneW_power]; norm_num) (by norm_num)
  exact ⟨h.1, h.2 0⟩

/-- C7 (code_bug evaluation): on the zero field, `power` is `0`, yet
`normpower` does not raise — the source has no error path; it divides by the
zero power and returns a Field, whose total power is not the requested `1`.
(In floating point the scale is `inf`/`nan`; in the exact model the result
is the degenerate zero field.) -/
theorem C7_zero_power_eval :
    fZeroW.power = 0 ∧ (fZeroW.normpower 1).power ≠ 1 := by
  have h0 : fZeroW.power = 0 := by
    show trapz _ _ = 0
    rw [trapz, Fin.sum_univ_one]
    norm_num [fZeroW]
  have h1 : (fZeroW.normpower 1).power = 0 := by
    show trapz _ _ = 0
    rw [trapz, Fin.sum_univ_one]
    norm_num [fZeroW, Field.normpower]
  rw [h0, h1]
  norm_num

/-- C8 (code_bug evaluation): `chirp` returns the third coefficient of
whatever pair the least-squares oracle hands back, identically in the status
flag `ier`; in particular for `ier = 5` (not converged, per scipy's
contract) it still silently returns the coefficient instead of failing. -/
theorem C8_solver_flag_ignored {n : ℕ} (f : Field n) (pgap : ℝ)
    (sol : Fin 3 → ℝ) (i1 i2 : ℤ) :
    f.chirp pgap (fun _ _ _ => ⟨sol, i1⟩) = f.chirp pgap (fun _ _ _ => ⟨sol, i2⟩) ∧
    ¬ (LeastsqResult.mk sol 5).converged ∧
    f.chirp pgap (fun _ _ _ => ⟨sol, 5⟩) = sol 2 := by
  refine ⟨rfl, fun hc => ?_, rfl⟩
  have h5 : (LeastsqResult.mk sol 5).ier = 5 := rfl
  rcases hc with h | h | h | h <;> rw [h5] at h <;> norm_num at h

/-- The running shift of the unwrap loop always differs from the initial
shift by an exact integer multiple of `2π`. -/
theorem mergeShift_sub_int (phi : ℕ → ℝ) (gap s0 : ℝ) (i : ℕ) :
    ∃ k : ℤ, mergeShift phi gap s0 i = s0 + 2 * Real.pi * k := by
  induction i with
  | zero => exact ⟨0, by simp [mergeShift]⟩
  | succ i ih =>
    obtain ⟨k, hk⟩ := ih
    simp only [mergeShift]
    split_ifs
    · exact ⟨k + 1, by rw [hk]; push_cast; ring⟩
    · exact ⟨k - 1, by rw [hk]; push_cast; ring⟩
    · exact ⟨k, hk⟩

/-- When the backward raw-phase step over a pair stays within the
`±gap*π` band, the unwrap loop leaves the running shift unchanged. -/
theorem mergeShift_band (phi : ℕ → ℝ) (gap s0 : ℝ) (i : ℕ)
    (h : |phi i - phi (i + 1)| ≤ gap * Real.pi) :
    mergeShift phi gap s0 (i + 1) = mergeShift phi gap s0 i := by
  obtain ⟨hl, hr⟩ := abs_le.mp h
  simp only [mergeShift]
  rw [if_neg (not_lt.mpr hr), if_neg (not_lt.mpr hl)]

/-- Reading the raw phase at a valid natural index. -/
theorem phiNat_val {n : ℕ} (f : Field n) (i : Fin (n + 1)) :
    f.phiNat i.val = f.phaseY i := by
  unfold Field.phiNat
  rw [dif_pos i.isLt]

/-- C3: in `phasemerged(gap, shift=0)` every adjacent pair whose raw wrapped
phase difference lies within `[-gap*π, gap*π]` has its unwrapped difference
in that same band, and every sample's unwrapped value differs from its raw
phase by an exact integer multiple of `2π` (plus the initial shift, `0`). -/
theorem C3_unwrap_bounded {n : ℕ} (f : Field n) (gap : ℝ) :
    (∀ i : Fin n,
        |f.phaseY i.castSucc - f.phaseY i.succ| ≤ gap * Real.pi →
        |f.phasemergedY gap 0 i.castSucc - f.phasemergedY gap 0 i.succ| ≤ gap * Real.pi) ∧
      ∀ i : Fin (n + 1), ∃ k : ℤ, f.phasemergedY gap 0 i = f.phaseY i + 2 * Real.pi * k := by
  constructor
  · intro i hband
    have hc : f.phiNat i.val = f.phaseY i.castSucc := phiNat_val f i.castSucc
    have hs : f.phiNat (i.val + 1) = f.phaseY i.succ := phiNat_val f i.succ
    have hband' : |f.phiNat i.val - f.phiNat (i.val + 1)| ≤ gap * Real.pi := by
      rw [hc, hs]
      exact hband
    have hstep := mergeShift_band f.phiNat gap 0 i.val hband'
    have hsucc0 : ¬((i.succ : ℕ) = 0) := by simp [Fin.val_succ]
    by_cases h0 : (i.val : ℕ) = 0
    · have e1 : f.phasemergedY gap 0 i.castSucc = f.phaseY i.castSucc := by
        unfold Field.phasemergedY
        rw [if_pos (show (i.castSucc : ℕ) = 0 from h0)]
      have e2 : f.phasemergedY gap 0 i.succ = f.phaseY i.succ := by
        unfold Field.phasemergedY
        rw [if_neg hsucc0]
        have : mergeShift f.phiNat gap 0 (i.succ : ℕ) = 0 := by
          show mergeShift f.phiNat gap 0 (i.val + 1) = 0
          rw [hstep, h0]
          rfl
        rw [this, add_zero]
      rw [e1, e2]
      exact hband
    · have e1 : f.phasemergedY gap 0 i.castSucc =
          f.phaseY i.castSucc + mergeShift f.phiNat gap 0 i.val := by
        unfold Field.phasemergedY
        rw [if_neg (show ¬((i.castSucc : ℕ) = 0) from h0)]
        rfl
      have e2 : f.phasemergedY gap 0 i.succ =
          f.phaseY i.succ + mergeShift f.phiNat gap 0 (i.val + 1) := by
        unfold Field.phasemergedY
        rw [if_neg hsucc0]
        rfl
      rw [e1, e2, hstep]
      have : f.phaseY i.castSucc + mergeShift f.phiNat gap 0 i.val -
          (f.phaseY i.succ + mergeShift f.phiNat gap 0 i.val) =
          f.phaseY i.castSucc - f.phaseY i.succ := by
        ring
      rw [this]
      exact hband
  · intro i
    by_cases h0 : (i.val : ℕ) = 0
    · refine ⟨0, ?_⟩
      unfold Field.phasemergedY
      rw [if_pos h0]
      push_cast
      ring
    · obtain ⟨k, hk⟩ := mergeShift_sub_int f.phiNat gap 0 i.val
      refine ⟨k, ?_⟩
      unfold Field.phasemergedY
      rw [if_neg h0, hk]
      ring

/-- The concrete field `fOneW` has raw phase `0` everywhere (its samples are
the positive real `1`). -/
theorem fOneW_phase (j : Fin 2) : fOneW.phaseY j = 0 := by
  show arctan2 (1 : ℂ).im (1 : ℂ).re = 0
  rw [Complex.one_im, Complex.one_re]
  unfold arctan2
  have h1 : (⟨1, 0⟩ : ℂ) = 1 := by
    apply Complex.ext <;> simp
  rw [h1, Complex.arg_one]

/-- Witness for C3 at `fOneW` with the default threshold `4/3`: the raw
difference of the only adjacent pair is in band, and so is the unwrapped
difference. -/
theorem C3_unwrap_bounded_witness :
    |fOneW.phaseY (0 : Fin 1).castSucc - fOneW.phaseY (0 : Fin 1).succ| ≤ 4 / 3 * Real.pi ∧
      |fOneW.phasemergedY (4 / 3) 0 (0 : Fin 1).castSucc -
          fOneW.phasemergedY (4 / 3) 0 (0 : Fin 1).succ| ≤ 4 / 3 * Real.pi := by
  have hband :
      |fOneW.phaseY (0 : Fin 1).castSucc - fOneW.phaseY (0 : Fin 1).succ| ≤ 4 / 3 * Real.pi := by
    rw [fOneW_phase, fOneW_phase, sub_zero, abs_zero]
    positivity
  exact ⟨hband, (C3_unwrap_bounded fOneW (4 / 3)).1 0 hband⟩

/-- Geometric sum of `N`-th roots of unity: `Σ_k exp(2πi·m·k/N)` equals `N`
when `N ∣ m` and `0` otherwise. -/
theorem exp_sum_dvd (N : ℕ) (hN : 0 < N) (m : ℤ) :
    ∑ k : Fin N, Complex.exp (2 * (Real.pi : ℂ) * Complex.I * m * ((k : ℕ) : ℂ) / N) =
      if (N : ℤ) ∣ m then (N : ℂ) else 0 := by
  have hNC : (N : ℂ) ≠ 0 := Nat.cast_ne_zero.mpr hN.ne'
  by_cases hdvd : (N : ℤ) ∣ m
  · rw [if_pos hdvd]
    obtain ⟨t, ht⟩ := hdvd
    have hone : ∀ k : Fin N,
        Complex.exp (2 * (Real.pi : ℂ) * Complex.I * m * ((k : ℕ) : ℂ) / N) = 1 := by
      intro k
      have harg : 2 * (Real.pi : ℂ) * Complex.I * m * ((k : ℕ) : ℂ) / N =
          ((t * (k : ℕ) : ℤ) : ℂ) * (2 * (Real.pi : ℂ) * Complex.I) := by
        rw [ht]
        push_cast
        rw [div_eq_iff hNC]
        ring
      rw [harg, Complex.exp_int_mul_two_pi_mul_I]
    simp only [hone]
    simp
  · rw [if_neg hdvd]
    have hzne : Complex.exp (2 * (Real.pi : ℂ) * Complex.I * m / N) ≠ 1 := by
      intro hz1
      obtain ⟨t, ht⟩ := Complex.exp_eq_one_iff.mp hz1
      apply hdvd
      refine ⟨t, ?_⟩
      have hpi : (2 * (Real.pi : ℂ) * Complex.I) ≠ 0 := by
        have hp : (Real.pi : ℂ) ≠ 0 := Complex.ofReal_ne_zero.mpr Real.pi_ne_zero
        simp [hp, Complex.I_ne_zero]
      have h3 : 2 * (Real.pi : ℂ) * Complex.I * m = (t : ℂ) * (2 * (Real.pi : ℂ) * Complex.I) * N := by
        have h4 := congrArg (fun w => w * (N : ℂ)) ht
        simpa [div_mul_cancel₀, hNC] using h4
      have h5 : 2 * (Real.pi : ℂ) * Complex.I * (m : ℂ) =
          2 * (Real.pi : ℂ) * Complex.I * ((t : ℂ) * N) := by
        rw [h3]
        ring
      have h6 : (m : ℂ) = ((N * t : ℤ) : ℂ) := by
        have := mul_left_cancel₀ hpi h5
        push_cast
        rw [this]
        ring
      exact_mod_cast h6
    have hterm : ∀ k : Fin N,
        Complex.exp (2 * (Real.pi : ℂ) * Complex.I * m * ((k : ℕ) : ℂ) / N) =
          Complex.exp (2 * (Real.pi : ℂ) * Complex.I * m / N) ^ (k : ℕ) := by
      intro k
      rw [← Complex.exp_nat_mul]
      congr 1
      ring
    simp only [hterm]
    rw [Fin.sum_univ_eq_sum_range (fun j => Complex.exp (2 * (Real.pi : ℂ) * Complex.I * m / N) ^ j)]
    rw [geom_sum_eq hzne]
    have hzN : Complex.exp (2 * (Real.pi : ℂ) * Complex.I * m / N) ^ N = 1 := by
      rw [← Complex.exp_nat_mul]
      have harg : (N : ℂ) * (2 * (Real.pi : ℂ) * Complex.I * m / N) =
          (m : ℂ) * (2 * (Real.pi : ℂ) * Complex.I) := by
        rw [mul_div_assoc']
        rw [div_eq_iff hNC]
        ring
      rw [harg, Complex.exp_int_mul_two_pi_mul_I]
    rw [hzN]
    simp

/-- The exact inverse DFT inverts the exact DFT: in exact arithmetic
`ifft(fft(v)) = v` for the black-box transform pair. -/
theorem idft_dft (N : ℕ) (hN : 0 < N) (y : Fin N → ℂ) : idft N (dft N y) = y := by
  have hNC : (N : ℂ) ≠ 0 := Nat.cast_ne_zero.mpr hN.ne'
  funext k
  unfold idft dft
  have step1 : ∀ j : Fin N,
      (∑ l : Fin N, y l *
            Complex.exp (-(2 * (Real.pi : ℂ) * Complex.I) * (((j : ℕ) * (l : ℕ) : ℕ) : ℂ) / N)) *
          Complex.exp (2 * (Real.pi : ℂ) * Complex.I * (((k : ℕ) * (j : ℕ) : ℕ) : ℂ) / N) =
        ∑ l : Fin N, y l *
          Complex.exp (2 * (Real.pi : ℂ) * Complex.I * (((k : ℤ) - ((l : ℕ) : ℤ) : ℤ) : ℂ) * ((j : ℕ) : ℂ) / N) := by
    intro j
    rw [Finset.sum_mul]
    refine Finset.sum_congr rfl fun l _ => ?_
    rw [mul_assoc, ← Complex.exp_add]
    congr 2
    push_cast
    rw [div_add_div_same, div_eq_div_iff hNC hNC]
    ring
  simp only [step1]
  rw [Finset.sum_comm]
  have step2 : ∀ l : Fin N,
      (∑ j : Fin N, y l *
          Complex.exp (2 * (Real.pi : ℂ) * Complex.I * (((k : ℤ) - ((l : ℕ) : ℤ) : ℤ) : ℂ) * ((j : ℕ) : ℂ) / N)) =
        y l * (if (N : ℤ) ∣ ((k : ℤ) - ((l : ℕ) : ℤ)) then (N : ℂ) else 0) := by
    intro l
    rw [← Finset.mul_sum, exp_sum_dvd N hN ((k : ℤ) - ((l : ℕ) : ℤ))]
  simp only [step2]
  have hiff : ∀ l : Fin N, ((N : ℤ) ∣ ((k : ℤ) - ((l : ℕ) : ℤ))) ↔ l = k := by
    intro l
    constructor
    · intro hd
      have hk := k.isLt
      have hl := l.isLt
      have h0 : ((k : ℕ) : ℤ) - ((l : ℕ) : ℤ) = 0 :=
        Int.eq_zero_of_dvd_of_natAbs_lt_natAbs hd (by omega)
      exact Fin.ext (by omega)
    · rintro rfl
      simp
  simp only [hiff, mul_ite, mul_zero]
  rw [Finset.sum_ite_eq' Finset.univ k fun l => y l * (N : ℂ)]
  simp only [Finset.mem_univ, if_pos]
  exact mul_div_cancel_right₀ (y k) hNC

/-- `idft` of the zero vector is zero. -/
theorem idft_zero (N : ℕ) : idft N (fun _ => 0) = fun _ => 0 := by
  funext k
  simp [idft]

/-- `ifftshift` undoes `fftshift`. -/
theorem ifftshiftF_fftshiftF {n : ℕ} {α : Type} (v : Fin (n + 1) → α) :
    ifftshiftF (fftshiftF v) = v := by
  funext i
  unfold ifftshiftF fftshiftF
  refine congrArg v (Fin.ext ?_)
  show ((i.val + (n + 1) / 2) % (n + 1) + (n + 1 - (n + 1) / 2)) % (n + 1) = i.val
  rw [Nat.mod_add_mod]
  have h1 : i.val + (n + 1) / 2 + (n + 1 - (n + 1) / 2) = i.val + (n + 1) := by omega
  rw [h1, Nat.add_mod_right, Nat.mod_eq_of_lt i.isLt]

/-- `fftshift` undoes `ifftshift`. -/
theorem fftshiftF_ifftshiftF {n : ℕ} {α : Type} (v : Fin (n + 1) → α) :
    fftshiftF (ifftshiftF v) = v := by
  funext i
  unfold fftshiftF ifftshiftF
  refine congrArg v (Fin.ext ?_)
  show ((i.val + (n + 1 - (n + 1) / 2)) % (n + 1) + (n + 1) / 2) % (n + 1) = i.val
  rw [Nat.mod_add_mod]
  have h1 : i.val + (n + 1 - (n + 1) / 2) + (n + 1) / 2 = i.val + (n + 1) := by omega
  rw [h1, Nat.add_mod_right, Nat.mod_eq_of_lt i.isLt]

/-- A vector whose `fftshift` is zero is zero. -/
theorem eq_zero_of_fftshiftF_eq_zero {n : ℕ} (v : Fin (n + 1) → ℂ)
    (h : fftshiftF v = fun _ => 0) : v = fun _ => 0 := by
  have := congrArg ifftshiftF h
  rw [ifftshiftF_fftshiftF] at this
  rw [this]
  funext i
  rfl

/-- Closed form of the frequency axis `fftshift(fftfreq(N, d) + cf)` built
by `fft`: entry `i` is `(i - ⌊N/2⌋)/(N·d) + cf`. -/
theorem fftshift_fftfreq {n : ℕ} (d cf : ℝ) (i : Fin (n + 1)) :
    fftshiftF (fun k => fftfreq (n + 1) d k + cf) i =
      (((i : ℕ) : ℝ) - (((n + 1) / 2 : ℕ) : ℝ)) / (((n + 1 : ℕ) : ℝ) * d) + cf := by
  unfold fftshiftF fftfreq
  show (if (i.val + (n + 1 - (n + 1) / 2)) % (n + 1) < (n + 1 + 1) / 2
      then ((((i.val + (n + 1 - (n + 1) / 2)) % (n + 1) : ℕ) : ℝ))
      else ((((i.val + (n + 1 - (n + 1) / 2)) % (n + 1) : ℕ) : ℝ)) - ((n + 1 : ℕ) : ℝ)) /
        (((n + 1 : ℕ) : ℝ) * d) + cf =
    (((i : ℕ) : ℝ) - (((n + 1) / 2 : ℕ) : ℝ)) / (((n + 1 : ℕ) : ℝ) * d) + cf
  have hival := i.isLt
  by_cases hi : i.val < (n + 1) / 2
  · have hidx : (i.val + (n + 1 - (n + 1) / 2)) % (n + 1) = i.val + (n + 1 - (n + 1) / 2) :=
      Nat.mod_eq_of_lt (by omega)
    rw [hidx, if_neg (by omega)]
    congr 1
    rw [Nat.cast_add, Nat.cast_sub (by omega : (n + 1) / 2 ≤ n + 1)]
    push_cast
    ring
  · have hidx : (i.val + (n + 1 - (n + 1) / 2)) % (n + 1) = i.val - (n + 1) / 2 := by
      have h2 : i.val + (n + 1 - (n + 1) / 2) = (i.val - (n + 1) / 2) + (n + 1) := by omega
      rw [h2, Nat.add_mod_right, Nat.mod_eq_of_lt (by omega)]
    rw [hidx, if_pos (by omega)]
    congr 1
    rw [Nat.cast_sub (by omega : (n + 1) / 2 ≤ i.val)]

/-- The sample spacing is nonnegative (it is an absolute value divided by a
natural number). -/
theorem spacing_nonneg {n : ℕ} (f : Field n) : 0 ≤ f.spacing :=
  div_nonneg (abs_nonneg _) (Nat.cast_nonneg n)

/-- On a time-domain field, `fft(asis=True)` returns the raw transformed
field. -/
theorem fft_asis_eq {n : ℕ} (f : Field n) (h : f.domain = Domain.time) :
    f.fft true = some f.fftRaw := by
  unfold Field.fft
  rw [if_pos h]
  rfl

/-- On a frequency-domain field, `ifft(asis=True)` returns the raw
transformed field. -/
theorem ifft_asis_eq {n : ℕ} (f : Field n) (h : f.domain = Domain.freq) :
    f.ifft true = some f.ifftRaw := by
  unfold Field.ifft
  rw [if_pos h]
  rfl

/-- Span of the frequency axis built by `fft`: its last entry minus its
first is `n / ((n+1)·d)`. -/
theorem fftAxis_span {n : ℕ} (d cf : ℝ) :
    fftshiftF (fun k => fftfreq (n + 1) d k + cf) (Fin.last n) -
      fftshiftF (fun k => fftfreq (n + 1) d k + cf) 0 =
      (n : ℝ) / (((n + 1 : ℕ) : ℝ) * d) := by
  rw [fftshift_fftfreq, fftshift_fftfreq]
  have h0 : ((((0 : Fin (n + 1)) : ℕ)) : ℝ) = 0 := by norm_num
  have hl : ((((Fin.last n) : ℕ)) : ℝ) = (n : ℝ) := by norm_num
  rw [h0, hl]
  calc ((n : ℝ) - (((n + 1) / 2 : ℕ) : ℝ)) / (((n + 1 : ℕ) : ℝ) * d) + cf -
        ((0 - (((n + 1) / 2 : ℕ) : ℝ)) / (((n + 1 : ℕ) : ℝ) * d) + cf)
      = ((n : ℝ) - (((n + 1) / 2 : ℕ) : ℝ)) / (((n + 1 : ℕ) : ℝ) * d) -
        (0 - (((n + 1) / 2 : ℕ) : ℝ)) / (((n + 1 : ℕ) : ℝ) * d) := by ring
    _ = (((n : ℝ) - (((n + 1) / 2 : ℕ) : ℝ)) - (0 - (((n + 1) / 2 : ℕ) : ℝ))) /
        (((n + 1 : ℕ) : ℝ) * d) := div_sub_div_same _ _ _
    _ = (n : ℝ) / (((n + 1 : ℕ) : ℝ) * d) := by norm_num

/-- Axis algebra of the round trip: from the frequency-axis span
`n/((n+1)·d)`, the `linspace` of `ifft` re-derives the centered time axis of
spacing `d` (including the degenerate zero-spacing cases, where every
division by zero yields `0` on both sides). -/
theorem roundtrip_axis_value (n : ℕ) (d : ℝ) (hd : 0 ≤ d) (hd0 : n = 0 → d = 0)
    (k : Fin (n + 1)) :
    -(0.5 / (|(n : ℝ) / (((n + 1 : ℕ) : ℝ) * d)| / (n : ℝ))) +
        ((k : ℕ) : ℝ) * ((0.5 / (|(n : ℝ) / (((n + 1 : ℕ) : ℝ) * d)| / (n : ℝ)) -
            -(0.5 / (|(n : ℝ) / (((n + 1 : ℕ) : ℝ) * d)| / (n : ℝ)))) / ((n : ℝ) + 1)) =
      -((((n : ℝ) + 1) * d)) / 2 + ((k : ℕ) : ℝ) * d := by
  rcases Nat.eq_zero_or_pos n with hn | hn
  · have hdz : d = 0 := hd0 hn
    subst hdz
    subst hn
    have hk : ((k : ℕ) : ℝ) = 0 := by
      have h1 : (k : ℕ) = 0 := by omega
      rw [h1]
      norm_num
    rw [hk]
    norm_num
  · have hnR : (0 : ℝ) < (n : ℝ) := by exact_mod_cast hn
    rcases eq_or_lt_of_le hd with hdz | hdp
    · rw [← hdz]
      norm_num
    · have hden : (0 : ℝ) < ((n + 1 : ℕ) : ℝ) * d := by positivity
      have habs : |(n : ℝ) / (((n + 1 : ℕ) : ℝ) * d)| = (n : ℝ) / (((n + 1 : ℕ) : ℝ) * d) :=
        abs_of_nonneg (by positivity)
      rw [habs]
      have hne1 : (n : ℝ) ≠ 0 := hnR.ne'
      have hne2 : ((n + 1 : ℕ) : ℝ) * d ≠ 0 := hden.ne'
      have hcast : ((n + 1 : ℕ) : ℝ) = (n : ℝ) + 1 := by push_cast; ring
      rw [hcast] at *
      field_simp
      ring

/-- C1 (amended): on any time-domain Field, `fft(asis=True)` followed by
`ifft(asis=True)` reproduces the sample values exactly, while the
coordinate axis is re-derived as the centered axis `-N·dt/2 + k·dt` of the
original spacing `dt` — so the original axis is reproduced only when it was
already centered that way. -/
theorem C1_roundtrip_amended {n : ℕ} (f : Field n) (h : f.domain = Domain.time) :
    f.roundtrip = some
      { x := fun k => -((((n : ℝ) + 1) * f.spacing)) / 2 + ((k : ℕ) : ℝ) * f.spacing
        y := f.y
        domain := Domain.time
        central_freq := f.central_freq } := by
  unfold Field.roundtrip
  rw [fft_asis_eq f h, Option.some_bind', ifft_asis_eq f.fftRaw rfl, Option.some.injEq]
  have hspan : f.fftRaw.x (Fin.last n) - f.fftRaw.x 0 =
      (n : ℝ) / (((n + 1 : ℕ) : ℝ) * f.spacing) := fftAxis_span f.spacing f.central_freq
  have hfm : f.fftRaw.spacing = |(n : ℝ) / (((n + 1 : ℕ) : ℝ) * f.spacing)| / (n : ℝ) := by
    show |f.fftRaw.x (Fin.last n) - f.fftRaw.x 0| / (n : ℝ) = _
    rw [hspan]
  have hd0 : n = 0 → f.spacing = 0 := by
    intro hn
    subst hn
    unfold Field.spacing
    norm_num
  refine Field.ext ?_ ?_ rfl rfl
  · funext k
    show -(0.5 / f.fftRaw.spacing) +
        ((k : ℕ) : ℝ) * ((0.5 / f.fftRaw.spacing - -(0.5 / f.fftRaw.spacing)) / ((n : ℝ) + 1)) =
      -((((n : ℝ) + 1) * f.spacing)) / 2 + ((k : ℕ) : ℝ) * f.spacing
    rw [hfm]
    exact roundtrip_axis_value n f.spacing (spacing_nonneg f) hd0 k
  · show fftshiftF (idft (n + 1) (ifftshiftF (fftshiftF (dft (n + 1) (ifftshiftF f.y))))) = f.y
    rw [ifftshiftF_fftshiftF, idft_dft (n + 1) n.succ_pos, fftshiftF_ifftshiftF]

/-- Witness for the amended C1 at the concrete field `fOneW`. -/
theorem C1_roundtrip_amended_witness :
    fOneW.roundtrip = some
      { x := fun k => -(((((1 : ℕ) : ℝ) + 1) * fOneW.spacing)) / 2 + ((k : ℕ) : ℝ) * fOneW.spacing
        y := fOneW.y
        domain := Domain.time
        central_freq := fOneW.central_freq } :=
  C1_roundtrip_amended fOneW rfl

/-- Counterexample to C1 as stated: the round trip of `fOneW` (axis
`[0, 1]`) yields the axis `[-1, 0]` — its first coordinate is `-1`, not the
original `0`; the coordinate axis is not reproduced. -/
theorem C1_roundtrip_counterexample :
    Option.map (fun g : Field 1 => g.x 0) fOneW.roundtrip = some (-1) ∧ fOneW.x 0 = 0 := by
  have hsp : fOneW.spacing = 1 := by
    unfold Field.spacing
    norm_num [fOneW]
  have hspan := fftAxis_span (n := 1) fOneW.spacing fOneW.central_freq
  have hfm : fOneW.fftRaw.spacing = 1 / 2 := by
    show |fftshiftF (fun k => fftfreq (1 + 1) fOneW.spacing k + fOneW.central_freq) (Fin.last 1) -
        fftshiftF (fun k => fftfreq (1 + 1) fOneW.spacing k + fOneW.central_freq) 0| /
        ((1 : ℕ) : ℝ) = 1 / 2
    rw [hspan, hsp]
    norm_num
  constructor
  · unfold Field.roundtrip
    rw [fft_asis_eq fOneW rfl, Option.some_bind', ifft_asis_eq fOneW.fftRaw rfl,
      Option.map_some', Option.some.injEq]
    show -(0.5 / fOneW.fftRaw.spacing) +
        (((0 : Fin 2) : ℕ) : ℝ) *
          ((0.5 / fOneW.fftRaw.spacing - -(0.5 / fOneW.fftRaw.spacing)) / (((1 : ℕ) : ℝ) + 1)) = -1
    rw [hfm]
    norm_num
  · show ((0 : ℕ) : ℝ) = 0
    norm_num

/-- A vanishing trapezoidal integral of a nonnegative integrand over an axis
with strictly positive steps forces the integrand to vanish at every sample
(for `n ≥ 1`, so that every sample belongs to some pair). -/
theorem trapz_eq_zero_forall {n : ℕ} {x v : Fin (n + 1) → ℝ} (hn : 0 < n)
    (hstep : ∀ i : Fin n, 0 < x i.succ - x i.castSucc)
    (hv : ∀ i, 0 ≤ v i) (h0 : trapz x v = 0) : ∀ j, v j = 0 := by
  have hterm : ∀ i ∈ (Finset.univ : Finset (Fin n)),
      (x i.succ - x i.castSucc) * (v i.castSucc + v i.succ) / 2 = 0 := by
    refine (Finset.sum_eq_zero_iff_of_nonneg fun i _ => ?_).mp h0
    have h2 : 0 ≤ v i.castSucc + v i.succ := add_nonneg (hv _) (hv _)
    exact div_nonneg (mul_nonneg (hstep i).le h2) (by norm_num)
  have hpair : ∀ i : Fin n, v i.castSucc = 0 ∧ v i.succ = 0 := by
    intro i
    have h1 := hterm i (Finset.mem_univ i)
    have h2 : v i.castSucc + v i.succ = 0 := by
      rcases div_eq_zero_iff.mp h1 with hab | h2z
      · rcases mul_eq_zero.mp hab with hca | hcb
        · exact absurd hca (hstep i).ne'
        · exact hcb
      · norm_num at h2z
    constructor
    · linarith [hv i.castSucc, hv i.succ]
    · linarith [hv i.castSucc, hv i.succ]
  intro j
  by_cases hj : j.val < n
  · have h1 := (hpair ⟨j.val, hj⟩).1
    have hcast : (⟨j.val, hj⟩ : Fin n).castSucc = j := Fin.ext rfl
    rw [hcast] at h1
    exact h1
  · have hn1 : n - 1 < n := by omega
    have h1 := (hpair ⟨n - 1, hn1⟩).2
    have hcast : (⟨n - 1, hn1⟩ : Fin n).succ = j := Fin.ext (by
      show n - 1 + 1 = j.val
      have := j.isLt
      omega)
    rw [hcast] at h1
    exact h1

/-- The step between consecutive entries of the frequency axis built by
`fft` is the constant `1/((n+1)·d)`. -/
theorem fftRaw_x_step {n : ℕ} (f : Field n) (i : Fin n) :
    f.fftRaw.x i.succ - f.fftRaw.x i.castSucc = 1 / (((n + 1 : ℕ) : ℝ) * f.spacing) := by
  show fftshiftF (fun k => fftfreq (n + 1) f.spacing k + f.central_freq) i.succ -
      fftshiftF (fun k => fftfreq (n + 1) f.spacing k + f.central_freq) i.castSucc = _
  rw [fftshift_fftfreq, fftshift_fftfreq]
  have hsv : ((i.succ : ℕ) : ℝ) = ((i.castSucc : ℕ) : ℝ) + 1 := by
    rw [Fin.val_succ, Fin.coe_castSucc]
    push_cast
    ring
  rw [hsv]
  have key : ∀ a s D cf : ℝ, (a + 1 - s) / D + cf - ((a - s) / D + cf) = 1 / D := by
    intro a s D cf
    calc (a + 1 - s) / D + cf - ((a - s) / D + cf)
        = (a + 1 - s) / D - (a - s) / D := by ring
      _ = (a + 1 - s - (a - s)) / D := div_sub_div_same _ _ _
      _ = 1 / D := by norm_num
  exact key _ _ _ _

/-- On a time-domain field, `fft(asis=False)` returns the raw transformed
field rescaled to the input's pre-transform power. -/
theorem fft_noasis_eq {n : ℕ} (f : Field n) (h : f.domain = Domain.time) :
    f.fft false = some (f.fftRaw.normpower f.power) := by
  unfold Field.fft
  rw [if_pos h]
  rfl

/-- If the raw transformed field has zero total power, the input had zero
total power: either the axis is degenerate (zero spacing, so a monotone
axis is constant and the input's trapezoidal power vanishes), or the
frequency-axis steps are positive and the vanishing integral forces the
transformed — hence, by DFT inversion, the original — samples to vanish. -/
theorem fftRaw_power_zero_imp {n : ℕ} (f : Field n) (hx : Monotone f.x) (hn : 0 < n)
    (hpr : f.fftRaw.power = 0) : f.power = 0 := by
  have hv0 : ∀ (g : Field n) (i : Fin (n + 1)), 0 ≤ (g.y i * conj (g.y i)).re :=
    fun g i => mul_conj_re_nonneg _
  rcases eq_or_lt_of_le (spacing_nonneg f) with hsz | hsp
  · have hxx : f.x (Fin.last n) = f.x 0 := by
      have hnne : (n : ℝ) ≠ 0 := Nat.cast_ne_zero.mpr hn.ne'
      have h2 : |f.x (Fin.last n) - f.x 0| = 0 := by
        have h3 : |f.x (Fin.last n) - f.x 0| = f.spacing * (n : ℝ) := by
          unfold Field.spacing
          field_simp
        rw [h3, ← hsz, zero_mul]
      have h4 : f.x (Fin.last n) - f.x 0 = 0 := abs_eq_zero.mp h2
      linarith
    have hconst : ∀ i, f.x i = f.x 0 := by
      intro i
      have hle1 : f.x i ≤ f.x (Fin.last n) := hx (Fin.le_last i)
      have hle2 : f.x 0 ≤ f.x i := hx (Fin.zero_le i)
      rw [hxx] at hle1
      exact le_antisymm hle1 hle2
    unfold Field.power trapz
    apply Finset.sum_eq_zero
    intro i _
    rw [hconst i.succ, hconst i.castSucc, sub_self, zero_mul, zero_div]
  · have hsteppos : ∀ i : Fin n, 0 < f.fftRaw.x i.succ - f.fftRaw.x i.castSucc := by
      intro i
      rw [fftRaw_x_step]
      exact div_pos one_pos (mul_pos (Nat.cast_pos.mpr (Nat.succ_pos n)) hsp)
    have hprz : trapz f.fftRaw.x
        (fun i => (f.fftRaw.y i * conj (f.fftRaw.y i)).re) = 0 := hpr
    have hallzero := trapz_eq_zero_forall hn hsteppos (hv0 f.fftRaw) hprz
    have hYzero : f.fftRaw.y = fun _ => 0 := by
      funext j
      have h1 := hallzero j
      rw [Complex.mul_conj, Complex.ofReal_re] at h1
      exact Complex.normSq_eq_zero.mp h1
    have hdftzero : dft (n + 1) (ifftshiftF f.y) = fun _ => 0 :=
      eq_zero_of_fftshiftF_eq_zero _ hYzero
    have hyzero : f.y = fun _ => 0 := by
      have h2 : ifftshiftF f.y = fun _ => 0 := by
        have h3 := idft_dft (n + 1) n.succ_pos (ifftshiftF f.y)
        rw [hdftzero] at h3
        rw [← h3, idft_zero]
      have h4 := congrArg fftshiftF h2
      rw [fftshiftF_ifftshiftF] at h4
      rw [h4]
      funext i
      rfl
    unfold Field.power
    rw [hyzero]
    unfold trapz
    apply Finset.sum_eq_zero
    intro i _
    simp

/-- C2 (amended): with the default normalisation (`asis=False`) on a
time-domain Field with monotone axis (data-model invariant) and **nonzero
total power**, no degenerate division occurs — the tracked transform agrees
with the total-division embedding — and the total power of `fft(f)` equals
the total power of `f` exactly.  (At zero total power the normalisation
divides zero by zero and the claim fails; see the counterexample.) -/
theorem C2_fft_conserves_power {n : ℕ} (f : Field n) (h : f.domain = Domain.time)
    (hx : Monotone f.x) (hp : f.power ≠ 0) :
    f.fftNormed = f.fft false ∧ (f.fft false).map Field.power = some f.power := by
  have hv0 : ∀ (g : Field n) (i : Fin (n + 1)), 0 ≤ (g.y i * conj (g.y i)).re :=
    fun g i => mul_conj_re_nonneg _
  have ht0 : 0 ≤ f.power :=
    trapz_nonneg (fun i => hx (Fin.castSucc_lt_succ i).le) (hv0 f)
  have hn : 0 < n := by
    rcases Nat.eq_zero_or_pos n with h0 | h0
    · exfalso
      apply hp
      subst h0
      unfold Field.power trapz
      simp
    · exact h0
  have hprne : f.fftRaw.power ≠ 0 := fun hpr => hp (fftRaw_power_zero_imp f hx hn hpr)
  have hstepA : ∀ i : Fin n, f.fftRaw.x i.castSucc ≤ f.fftRaw.x i.succ := by
    intro i
    rw [← sub_nonneg, fftRaw_x_step]
    exact div_nonneg zero_le_one (mul_nonneg (Nat.cast_nonneg _) (spacing_nonneg f))
  have hpr0 : 0 ≤ f.fftRaw.power := trapz_nonneg hstepA (hv0 _)
  constructor
  · unfold Field.fftNormed Field.fft Field.normpowerF fdiv
    rw [if_pos h, if_pos h, if_neg hprne]
    rfl
  · rw [fft_noasis_eq f h, Option.map_some', Option.some.injEq]
    rw [power_normpower, Real.sq_sqrt (div_nonneg ht0 hpr0), div_mul_cancel₀ _ hprne]

/-- Witness for the amended C2 at the concrete time-domain field `fOneW`
(power `1 ≠ 0`). -/
theorem C2_fft_conserves_power_witness :
    fOneW.fftNormed = fOneW.fft false ∧
      (fOneW.fft false).map Field.power = some fOneW.power :=
  C2_fft_conserves_power fOneW rfl fOneW_mono (by rw [fOneW_power]; norm_num)

/-- Counterexample to C2 as stated: the all-zero time-domain field over
`x = [0, 1]` is spec-valid (strictly increasing axis) and has total power
`0`; its raw transform also has power `0`, so the normalisation step of
`fft(asis=False)` divides `0.0` by `0.0` — in the program a `nan` scale and
`nan` output power, not the input's power.  With the degenerate division
tracked, the normalised transform produces no Field at all. -/
theorem C2_fft_zero_power_counterexample :
    fZeroW.domain = Domain.time ∧ StrictMono fZeroW.x ∧ fZeroW.power = 0 ∧
      fZeroW.fftRaw.power = 0 ∧ fZeroW.fftNormed = none := by
  have hzy : ifftshiftF fZeroW.y = fun _ => (0 : ℂ) := by
    funext i
    rfl
  have hdz : dft (1 + 1) (fun _ => (0 : ℂ)) = fun _ => 0 := by
    funext k
    simp [dft]
  have hY : fZeroW.fftRaw.y = fun _ => (0 : ℂ) := by
    show fftshiftF (dft (1 + 1) (ifftshiftF fZeroW.y)) = fun _ => 0
    rw [hzy, hdz]
    funext i
    rfl
  have hpz : fZeroW.power = 0 := by
    show trapz _ _ = 0
    rw [trapz, Fin.sum_univ_one]
    norm_num [fZeroW]
  have hprz : fZeroW.fftRaw.power = 0 := by
    unfold Field.power
    rw [hY]
    unfold trapz
    apply Finset.sum_eq_zero
    intro i _
    simp
  refine ⟨rfl, ?_, hpz, hprz, ?_⟩
  · intro a b hab
    show ((a : ℕ) : ℝ) < ((b : ℕ) : ℝ)
    exact Nat.cast_lt.mpr hab
  · unfold Field.fftNormed Field.normpowerF fdiv
    rw [if_pos (show fZeroW.domain = Domain.time from rfl), if_pos hprz]
    rfl

end

end Scipro
